import Mathlib

/-!
Verification of the auth-z permission compiler and query engine
(`src/services/PermissionParser.ts`) against its natural-language
specification.  The TypeScript source is shallowly embedded below:
the mutable `Map` becomes an insertion-ordered association list, the
`string[] | 'All' | DefaultResource` union becomes the `Resources`
inductive, and each function of the source is translated one-to-one.
-/

namespace AuthZ

/-- The string `constants.authorization.resources.default`. -/
def defaultResource : String := "__INTERNAL::[DEFAULT]__"

/-- The string `constants.authorization.resources.all`. -/
def allResources : String := "All"

/-- The string `constants.authorization.keyGeneration.glue`. -/
def keyGlue : String := ":"

/-- The list `constants.authorization.actions.allowedValues`. -/
def allowedActionValues : List String := ["Read", "Write", "ReadWrite"]

/-- The `Role` interface (`src/interfaces/Role.ts`).  `context` is typed
`'global' | 'local'` in the source; it is embedded as `String` since the
engine only ever uses it to build map keys. -/
structure Role where
  id : String
  name : String
  description : Option String
  permissions : List String
  context : String
deriving Repr, DecidableEq

/-- The TypeScript union `Permission['resources'] = string[] | AllResources |
DefaultResource`: either the literal string `'All'`, the literal default
marker string, or an array of resource identifiers. -/
inductive Resources where
  | all
  | dflt
  | list (rs : List String)
deriving Repr, DecidableEq

/-- A `PermissionBlock`: one entry of the compiled map, holding the resource
state of each internal action. -/
structure PermissionBlock where
  Read : Resources
  Write : Resources
deriving Repr, DecidableEq

/-- `InternalPermissionAction`: the actions a block stores (`ReadWrite`
is expanded away during compilation). -/
inductive InternalAction where
  | Read
  | Write
deriving Repr, DecidableEq

/-- Read the field `block[action]` selected by an internal action. -/
def blockGet (b : PermissionBlock) : InternalAction → Resources
  | .Read => b.Read
  | .Write => b.Write

/-- Write the field `block[action]` selected by an internal action. -/
def blockSet (b : PermissionBlock) (a : InternalAction) (r : Resources) : PermissionBlock :=
  match a with
  | .Read => { b with Read := r }
  | .Write => { b with Write := r }

/-- The compiled permissions map.  A JavaScript `Map<string, PermissionBlock>`
is an insertion-ordered dictionary; it is embedded as an association list
where `mapSet` updates in place or appends. -/
abbrev PMap : Type := List (String × PermissionBlock)

/-- `Map.prototype.get` (as an `Option`). -/
def mapGet (m : PMap) (k : String) : Option PermissionBlock :=
  match m with
  | [] => none
  | (k0, v0) :: rest => if k0 == k then some v0 else mapGet rest k

/-- `Map.prototype.set`: replace the binding in place if the key is present,
otherwise append it (preserving JavaScript `Map` iteration order). -/
def mapSet (m : PMap) (k : String) (v : PermissionBlock) : PMap :=
  match m with
  | [] => [(k, v)]
  | (k0, v0) :: rest => if k0 == k then (k, v) :: rest else (k0, v0) :: mapSet rest k v

/-- Split a list of characters at every occurrence of `sep`
(JavaScript `String.prototype.split` with a one-character separator). -/
def splitCharList (sep : Char) : List Char → List (List Char)
  | [] => [[]]
  | c :: cs =>
    match splitCharList sep cs with
    | [] => [[]]
    | h :: t => if c = sep then [] :: h :: t else (c :: h) :: t

/-- JavaScript `s.split(sep)` for a one-character separator. -/
def jsSplit (sep : Char) (s : String) : List String :=
  (splitCharList sep s.data).map fun cs => ⟨cs⟩

/-- `_key(context, scope)`: the composite dictionary key. -/
def _key (context scope : String) : String :=
  context ++ keyGlue ++ scope

/-- `_unKey(key)`: recover context and scope from a composite key. -/
def _unKey (key : String) : String × String :=
  let parts := jsSplit ':' key
  (parts.headD "", (parts[1]?).getD "")

/-- `_parsePermission(permissionString)`: split on `.`; the first segment is
the scope, the second the action (`none` embeds JavaScript `undefined` when
the segment is missing), the third the resource, defaulting to the internal
default marker when absent. -/
def _parsePermission (permissionString : String) : String × Option String × String :=
  let parts := jsSplit '.' permissionString
  (parts.headD "", parts[1]?, (parts[2]?).getD defaultResource)

/-- Expansion of a (valid) action token into internal actions:
`action === 'ReadWrite' ? ['Read', 'Write'] : [action]`.  Tokens outside
`allowedValues` yield `[]`; `_populate` skips them before this list is used. -/
def expandValid (action : String) : List InternalAction :=
  if action == "ReadWrite" then [.Read, .Write]
  else if action == "Read" then [.Read]
  else if action == "Write" then [.Write]
  else []

/-- State of `_populate`'s loop over one role: the permissions map plus the
`changedPermissions` set (an insertion-ordered set of keys). -/
structure PState where
  permissions : PMap
  changed : List String

/-- The `forEach` body of `_populate`'s specific-resource branch: append the
resource to the action's field when that field is still an array, leave a
marker field untouched. -/
def pushResource (resource : String) (b : PermissionBlock) (a : InternalAction) : PermissionBlock :=
  match blockGet b a with
  | .list rs => blockSet b a (.list (rs ++ [resource]))
  | _ => b

/-- One iteration of `_populate`'s inner loop: parse one permission string,
skip it if the action token is not allowed, otherwise overwrite the touched
action fields with a marker resource or append a specific resource to each
still-array field. -/
def processString (context : String) (st : PState) (permissionString : String) : PState :=
  let p := _parsePermission permissionString
  let scope := p.1
  let resource := p.2.2
  let key := _key context scope
  match p.2.1 with
  | none => st
  | some action =>
    if allowedActionValues.contains action then
      let current := (mapGet st.permissions key).getD ⟨.list [], .list []⟩
      let acts := expandValid action
      let current' :=
        if resource == allResources || resource == defaultResource then
          acts.foldl (fun b a => blockSet b a (if resource == allResources then .all else .dflt)) current
        else
          acts.foldl (pushResource resource) current
      { permissions := mapSet st.permissions key current'
        changed := if st.changed.contains key then st.changed else st.changed ++ [key] }
    else st

/-- Per-field optimization pass: collapse an array containing the `All`
marker string to ALL, and a non-empty array of default markers to DEFAULT. -/
def optimizeResources (r : Resources) : Resources :=
  match r with
  | .list rs =>
    if rs.contains allResources then .all
    else if decide (rs.length > 0) && rs.all (fun x => x == defaultResource) then .dflt
    else .list rs
  | x => x

/-- Optimization of one block (both action fields). -/
def optimizeBlock (b : PermissionBlock) : PermissionBlock :=
  ⟨optimizeResources b.Read, optimizeResources b.Write⟩

/-- One iteration of the per-role optimization loop: optimize the block
stored under one changed key (`permissions.get(permissionKey)!` cannot miss
in the source; a miss is embedded as a no-op). -/
def optStep (acc : PMap) (key : String) : PMap :=
  match mapGet acc key with
  | some b => mapSet acc key (optimizeBlock b)
  | none => acc

/-- Processing of one role by `_populate`: fold its permission strings, then
run the optimization pass over every key the role touched. -/
def processRole (m : PMap) (role : Role) : PMap :=
  let st := role.permissions.foldl (processString role.context) ⟨m, []⟩
  st.changed.foldl optStep st.permissions

/-- `_populate`, run once by the `PermissionParser` constructor.  The
compiled map is the fold of `processRole` over the role list (the source's
early return on an empty role list leaves the map empty, as the fold does). -/
def compile (roles : List Role) : PMap :=
  if roles.length == 0 then [] else roles.foldl processRole []

/-- The flattened `Permission` interface (`src/interfaces/Permission.ts`);
the nested `action: {read, write}` record is flattened into two fields. -/
structure Permission where
  context : String
  scope : String
  read : Bool
  write : Bool
  resources : Resources
deriving Repr, DecidableEq

/-- `equals(a, b)` from `_collapse`: string markers compare by identity,
arrays by equal length plus every element of `b` occurring in `a`. -/
def equalsRes (a b : Resources) : Bool :=
  match a, b with
  | .all, .all => true
  | .dflt, .dflt => true
  | .list x, .list y => x.length == y.length && y.all fun i => x.contains i
  | _, _ => false

/-- `includes(toBeTested, reference)` from `_collapse`: a marker tested
block always passes, a marker reference never does (against an array), and
two arrays compare by containment of the reference in the tested block. -/
def includesRes (toBeTested reference : Resources) : Bool :=
  match toBeTested with
  | .all => true
  | .dflt => true
  | .list t =>
    match reference with
    | .all => false
    | .dflt => false
    | .list r => r.all fun x => t.contains x

/-- `_collapse(key, block)`: one entry with both flags when the two action
fields are `equals`, otherwise one entry per non-`empty` action whose
opposite flag is `includes(other, this)`. -/
def _collapse (key : String) (block : PermissionBlock) : List Permission :=
  let cs := _unKey key
  if equalsRes block.Read block.Write then
    [⟨cs.1, cs.2, true, true, block.Read⟩]
  else
    (if equalsRes block.Read (.list []) then []
     else [⟨cs.1, cs.2, true, includesRes block.Write block.Read, block.Read⟩]) ++
    (if equalsRes block.Write (.list []) then []
     else [⟨cs.1, cs.2, includesRes block.Read block.Write, true, block.Write⟩])

/-- `unwrap()`: flatten every compiled block in map iteration order. -/
def unwrap (roles : List Role) : List Permission :=
  let m := compile roles
  if m.length == 0 then [] else m.flatMap fun kv => _collapse kv.1 kv.2

/-- The action list `_check`/`_checkAction` iterate over:
`action === 'ReadWrite' ? ['Read', 'Write'] : [action]`, on the raw
(possibly missing or invalid) parsed action token. -/
def expandCheckActions (action : Option String) : List (Option String) :=
  if action == some "ReadWrite" then [some "Read", some "Write"] else [action]

/-- `permission[action]` for a raw action token: JavaScript indexing with
anything other than `'Read'`/`'Write'` (including `undefined`) yields
`undefined`, embedded as `none`. -/
def fieldFor (b : PermissionBlock) : Option String → Option Resources
  | some a => if a == "Read" then some b.Read else if a == "Write" then some b.Write else none
  | none => none

/-- The per-action test of `_check`: the field is the ALL marker, the
DEFAULT marker, or an array containing the requested resource (a missing
field fails every comparison). -/
def checkResourceTest (fld : Option Resources) (resource : String) : Bool :=
  match fld with
  | some .all => true
  | some .dflt => true
  | some (.list rs) => rs.contains resource
  | none => false

/-- The per-action test of `_checkAction`: the field is the ALL marker, the
DEFAULT marker, or a non-empty array. -/
def checkActionTest (fld : Option Resources) : Bool :=
  match fld with
  | some .all => true
  | some .dflt => true
  | some (.list rs) => decide (rs.length > 0)
  | none => false

/-- `_check(scope, action, resource, context)`. -/
def _check (m : PMap) (scope : String) (action : Option String) (resource context : String) : Bool :=
  match mapGet m (_key context scope) with
  | none => false
  | some b => (expandCheckActions action).all fun a => checkResourceTest (fieldFor b a) resource

/-- `_checkAction(scope, action, context)`. -/
def _checkAction (m : PMap) (scope : String) (action : Option String) (context : String) : Bool :=
  match mapGet m (_key context scope) with
  | none => false
  | some b => (expandCheckActions action).all fun a => checkActionTest (fieldFor b a)

/-- `checkLocal(permissionString)` of the parser built from `roles`. -/
def checkLocal (roles : List Role) (permissionString : String) : Bool :=
  let p := _parsePermission permissionString
  _check (compile roles) p.1 p.2.1 p.2.2 "local"

/-- `checkGlobal(permissionString)` of the parser built from `roles`. -/
def checkGlobal (roles : List Role) (permissionString : String) : Bool :=
  let p := _parsePermission permissionString
  _check (compile roles) p.1 p.2.1 p.2.2 "global"

/-- `check(permissionString)` of the parser built from `roles`. -/
def check (roles : List Role) (permissionString : String) : Bool :=
  let p := _parsePermission permissionString
  _check (compile roles) p.1 p.2.1 p.2.2 "local" ||
    _check (compile roles) p.1 p.2.1 p.2.2 "global"

/-- `checkActionLocal(permissionString)` of the parser built from `roles`. -/
def checkActionLocal (roles : List Role) (permissionString : String) : Bool :=
  let p := _parsePermission permissionString
  _checkAction (compile roles) p.1 p.2.1 "local"

/-- `checkActionGlobal(permissionString)` of the parser built from `roles`. -/
def checkActionGlobal (roles : List Role) (permissionString : String) : Bool :=
  let p := _parsePermission permissionString
  _checkAction (compile roles) p.1 p.2.1 "global"

/-- `checkAction(permissionString)` of the parser built from `roles`. -/
def checkAction (roles : List Role) (permissionString : String) : Bool :=
  let p := _parsePermission permissionString
  _checkAction (compile roles) p.1 p.2.1 "local" ||
    _checkAction (compile roles) p.1 p.2.1 "global"

/-- `checkContext(permissionString)` of the parser built from `roles`. -/
def checkContext (roles : List Role) (permissionString : String) : String :=
  let scope := (_parsePermission permissionString).1
  let m := compile roles
  let hasLocal := (mapGet m (_key "local" scope)).isSome
  let hasGlobal := (mapGet m (_key "global" scope)).isSome
  if hasLocal && hasGlobal then "both"
  else if hasLocal then "local"
  else if hasGlobal then "global"
  else "none"

/-- The resource state stored for one `(key, action)` pair of a compiled map. -/
def fieldAt (m : PMap) (k : String) (a : InternalAction) : Option Resources :=
  (mapGet m k).map fun b => blockGet b a

theorem mapGet_mapSet_self (m : PMap) (k : String) (v : PermissionBlock) :
    mapGet (mapSet m k v) k = some v := by
  induction m with
  | nil => simp [mapGet, mapSet]
  | cons p rest ih =>
    obtain ⟨k0, v0⟩ := p
    by_cases h : k0 = k
    · subst h; simp [mapGet, mapSet]
    · simp [mapGet, mapSet, beq_iff_eq, h, ih]

theorem mapGet_mapSet_ne (m : PMap) {k k' : String} (v : PermissionBlock) (h : k' ≠ k) :
    mapGet (mapSet m k v) k' = mapGet m k' := by
  induction m with
  | nil => simp [mapGet, mapSet, beq_iff_eq, Ne.symm h]
  | cons p rest ih =>
    obtain ⟨k0, v0⟩ := p
    by_cases h0 : k0 = k
    · subst h0; simp [mapGet, mapSet, beq_iff_eq, Ne.symm h]
    · simp [mapGet, mapSet, beq_iff_eq, h0, ih]

theorem mapGet_mem {m : PMap} {k : String} {b : PermissionBlock}
    (h : mapGet m k = some b) : (k, b) ∈ m := by
  induction m with
  | nil => simp [mapGet] at h
  | cons p rest ih =>
    obtain ⟨k0, v0⟩ := p
    by_cases h0 : k0 = k
    · subst h0
      simp [mapGet] at h
      simp [h]
    · simp [mapGet, beq_iff_eq, h0] at h
      exact List.mem_cons_of_mem _ (ih h)

theorem mem_mapSet {m : PMap} {k : String} {v : PermissionBlock} {p : String × PermissionBlock}
    (h : p ∈ mapSet m k v) : p = (k, v) ∨ p ∈ m := by
  induction m with
  | nil => simp [mapSet] at h; simp [h]
  | cons q rest ih =>
    obtain ⟨k0, v0⟩ := q
    by_cases h0 : k0 = k
    · subst h0
      simp [mapSet] at h
      rcases h with h | h
      · exact Or.inl h
      · exact Or.inr (List.mem_cons_of_mem _ h)
    · simp [mapSet, beq_iff_eq, h0] at h
      rcases h with h | h
      · exact Or.inr (by simp [h])
      · rcases ih h with h' | h'
        · exact Or.inl h'
        · exact Or.inr (List.mem_cons_of_mem _ h')

theorem blockGet_blockSet (b : PermissionBlock) (a a' : InternalAction) (v : Resources) :
    blockGet (blockSet b a v) a' = if a = a' then v else blockGet b a' := by
  cases a <;> cases a' <;> simp [blockGet, blockSet]

theorem blockGet_optimizeBlock (b : PermissionBlock) (a : InternalAction) :
    blockGet (optimizeBlock b) a = optimizeResources (blockGet b a) := by
  cases a <;> simp [blockGet, optimizeBlock]

theorem splitCharList_ne_nil (sep : Char) (l : List Char) : splitCharList sep l ≠ [] := by
  induction l with
  | nil => simp [splitCharList]
  | cons c cs ih =>
    cases h : splitCharList sep cs with
    | nil => simp [splitCharList, h]
    | cons hd tl =>
      simp only [splitCharList, h]
      split <;> simp

theorem splitCharList_append (sep : Char) (xs ys : List Char) (h : sep ∉ xs) :
    splitCharList sep (xs ++ sep :: ys) = xs :: splitCharList sep ys := by
  induction xs with
  | nil =>
    simp only [List.nil_append, splitCharList]
    cases h2 : splitCharList sep ys with
    | nil => exact absurd h2 (splitCharList_ne_nil sep ys)
    | cons hd tl => simp
  | cons c cs ih =>
    have hc : c ≠ sep := fun hc => h (by simp [hc])
    have hcs : sep ∉ cs := fun hm => h (List.mem_cons_of_mem _ hm)
    cases h2 : splitCharList sep (cs ++ sep :: ys) with
    | nil => exact absurd h2 (splitCharList_ne_nil sep _)
    | cons hd tl =>
      have := ih hcs
      rw [h2] at this
      rw [List.cons.injEq] at this
      simp only [List.cons_append, splitCharList, List.append_eq, if_neg hc]
      rw [h2]
      simp [this.1, this.2]

theorem splitCharList_no_sep (sep : Char) (xs : List Char) (h : sep ∉ xs) :
    splitCharList sep xs = [xs] := by
  induction xs with
  | nil => simp [splitCharList]
  | cons c cs ih =>
    have hc : c ≠ sep := fun hc => h (by simp [hc])
    have hcs : sep ∉ cs := fun hm => h (List.mem_cons_of_mem _ hm)
    rw [splitCharList, ih hcs]
    simp [hc]

theorem jsSplit_dot_append (s t : String) (h : '.' ∉ s.data) :
    jsSplit '.' (s ++ "." ++ t) = s :: jsSplit '.' t := by
  unfold jsSplit
  have hd : (s ++ "." ++ t).data = s.data ++ '.' :: t.data := by
    simp [String.data_append]
  rw [hd, splitCharList_append _ _ _ h]
  simp

theorem jsSplit_no_dot (s : String) (h : '.' ∉ s.data) : jsSplit '.' s = [s] := by
  unfold jsSplit
  rw [splitCharList_no_sep _ _ h]
  simp

theorem parse_three (s a r : String) (hs : '.' ∉ s.data) (ha : '.' ∉ a.data)
    (hr : '.' ∉ r.data) :
    _parsePermission (s ++ "." ++ a ++ "." ++ r) = (s, some a, r) := by
  unfold _parsePermission
  have h1 : s ++ "." ++ a ++ "." ++ r = s ++ "." ++ (a ++ "." ++ r) := by
    simp [String.append_assoc]
  rw [h1, jsSplit_dot_append s _ hs, jsSplit_dot_append a _ ha, jsSplit_no_dot r hr]
  simp

theorem parse_two (s a : String) (hs : '.' ∉ s.data) (ha : '.' ∉ a.data) :
    _parsePermission (s ++ "." ++ a) = (s, some a, defaultResource) := by
  unfold _parsePermission
  rw [jsSplit_dot_append s a hs, jsSplit_no_dot a ha]
  simp

/-- The marker resource (the `All` string or the default marker string) that a
permission string grants for compiled-map key `k` and internal action `a` when
processed under role context `ctx`, if any. -/
def markerOfKey (ctx k : String) (a : InternalAction) (ps : String) : Option String :=
  let p := _parsePermission ps
  match p.2.1 with
  | none => none
  | some action =>
    if (a ∈ expandValid action) ∧ _key ctx p.1 = k ∧
        (p.2.2 = allResources ∨ p.2.2 = defaultResource)
    then some p.2.2 else none

/-- Every marker grant for `(k, a)` across a role list, in processing order. -/
def markerStream (roles : List Role) (k : String) (a : InternalAction) : List String :=
  roles.flatMap fun role => role.permissions.filterMap (markerOfKey role.context k a)

theorem allowed_of_expandValid {action : String} {a : InternalAction}
    (h : a ∈ expandValid action) : allowedActionValues.contains action = true := by
  unfold expandValid at h
  split_ifs at h with h1 h2 h3
  · simp only [beq_iff_eq] at h1; simp [allowedActionValues, h1]
  · simp only [beq_iff_eq] at h2; simp [allowedActionValues, h2]
  · simp only [beq_iff_eq] at h3; simp [allowedActionValues, h3]
  · simp at h

theorem blockGet_foldl_set (acts : List InternalAction) (b : PermissionBlock)
    (v : Resources) (a : InternalAction) :
    blockGet (acts.foldl (fun b' a' => blockSet b' a' v) b) a
      = if a ∈ acts then v else blockGet b a := by
  induction acts generalizing b with
  | nil => simp
  | cons x xs ih =>
    rw [List.foldl_cons, ih, blockGet_blockSet]
    by_cases hx : a ∈ xs
    · simp [hx]
    · by_cases hax : x = a
      · simp [hax, hx]
      · have hax' : ¬a = x := fun h => hax h.symm
        simp [hx, hax, hax']

theorem blockGet_pushResource (b : PermissionBlock) (x a : InternalAction) (r : String)
    (h : x = a → ∀ rs, blockGet b a ≠ .list rs) :
    blockGet (pushResource r b x) a = blockGet b a := by
  unfold pushResource
  cases hcur : blockGet b x with
  | list rs =>
    by_cases hax : x = a
    · subst hax; exact absurd hcur (h rfl rs)
    · rw [blockGet_blockSet]; simp [hax]
  | all => rfl
  | dflt => rfl

theorem blockGet_foldl_push_marker (acts : List InternalAction) (b : PermissionBlock)
    (r : String) (a : InternalAction) (hb : ∀ rs, blockGet b a ≠ .list rs) :
    blockGet (acts.foldl (pushResource r) b) a = blockGet b a := by
  induction acts generalizing b with
  | nil => simp
  | cons x xs ih =>
    rw [List.foldl_cons]
    have hstep : blockGet (pushResource r b x) a = blockGet b a :=
      blockGet_pushResource b x a r (fun _ => hb)
    rw [ih _ (by rw [hstep]; exact hb), hstep]

theorem marker_of_markerOfKey {ctx k : String} {a : InternalAction} {ps r : String}
    (h : markerOfKey ctx k a ps = some r) : r = allResources ∨ r = defaultResource := by
  simp only [markerOfKey] at h
  cases hp : (_parsePermission ps).2.1 with
  | none => simp only [hp] at h; exact absurd h (by simp)
  | some action =>
    simp only [hp] at h
    split_ifs at h with hc
    cases h; exact hc.2.2

theorem fieldAt_exists {m : PMap} {k : String} {a : InternalAction} {f : Resources}
    (h : fieldAt m k a = some f) : ∃ b, mapGet m k = some b ∧ blockGet b a = f := by
  unfold fieldAt at h
  cases hg : mapGet m k with
  | none => rw [hg] at h; simp at h
  | some b => rw [hg] at h; exact ⟨b, rfl, by simpa using h⟩

theorem fieldAt_processString_marker {ctx k : String} {a : InternalAction} {ps r : String}
    (st : PState) (h : markerOfKey ctx k a ps = some r) :
    fieldAt (processString ctx st ps).permissions k a
      = some (if r = allResources then Resources.all else Resources.dflt) := by
  simp only [markerOfKey] at h
  simp only [processString]
  cases hp : (_parsePermission ps).2.1 with
  | none => simp only [hp] at h; exact absurd h (by simp)
  | some action =>
    simp only [hp] at h ⊢
    split_ifs at h with hc
    · obtain ⟨hmem, hkey, hmk⟩ := hc
      have hr : (_parsePermission ps).2.2 = r := by injection h
      rw [if_pos (allowed_of_expandValid hmem)]
      have hcond : ((_parsePermission ps).2.2 == allResources
          || (_parsePermission ps).2.2 == defaultResource) = true := by
        rcases hmk with hmk | hmk <;> simp [hmk]
      rw [if_pos hcond, hkey]
      unfold fieldAt
      rw [mapGet_mapSet_self]
      simp only [Option.map_some']
      rw [blockGet_foldl_set, if_pos hmem, hr]
      rcases hmk with hmk | hmk <;> rw [hr] at hmk <;> subst hmk
      · simp
      · have hne : defaultResource ≠ allResources := by decide
        simp [beq_iff_eq, hne]

theorem fieldAt_processString_all {ctx k : String} {a : InternalAction} {ps : String}
    (st : PState) (h : markerOfKey ctx k a ps = none)
    (hf : fieldAt st.permissions k a = some Resources.all) :
    fieldAt (processString ctx st ps).permissions k a = some Resources.all := by
  simp only [markerOfKey] at h
  simp only [processString]
  cases hp : (_parsePermission ps).2.1 with
  | none => simp only [hp]; exact hf
  | some action =>
    simp only [hp] at h ⊢
    by_cases hallow : allowedActionValues.contains action = true
    · rw [if_pos hallow]
      by_cases hkey : _key ctx (_parsePermission ps).1 = k
      · obtain ⟨b, hg, hball⟩ := fieldAt_exists hf
        rw [hkey]
        unfold fieldAt
        rw [mapGet_mapSet_self]
        simp only [Option.map_some', hg, Option.getD_some]
        by_cases hmk : (_parsePermission ps).2.2 = allResources ∨ (_parsePermission ps).2.2 = defaultResource
        · have hmem : a ∉ expandValid action := by
            intro hmem
            rw [if_pos ⟨hmem, hkey, hmk⟩] at h
            simp at h
          have hcond : ((_parsePermission ps).2.2 == allResources
              || (_parsePermission ps).2.2 == defaultResource) = true := by
            rcases hmk with hmk | hmk <;> simp [hmk]
          rw [if_pos hcond, blockGet_foldl_set, if_neg hmem, hball]
        · have hcond : ((_parsePermission ps).2.2 == allResources
              || (_parsePermission ps).2.2 == defaultResource) = false := by
            simp only [Bool.or_eq_false_iff, beq_eq_false_iff_ne]
            exact ⟨fun h1 => hmk (Or.inl h1), fun h2 => hmk (Or.inr h2)⟩
          rw [if_neg (by simp [hcond])]
          rw [blockGet_foldl_push_marker _ _ _ _ (by rw [hball]; simp), hball]
      · unfold fieldAt
        rw [mapGet_mapSet_ne _ _ (fun hh => hkey hh.symm)]
        exact hf
    · rw [if_neg hallow]
      exact hf

theorem fieldAt_processString_sticky {ctx k : String} {a : InternalAction} {ps : String}
    {f : Resources} (st : PState)
    (hf : fieldAt st.permissions k a = some f) (hmark : f = Resources.all ∨ f = Resources.dflt)
    (hres : ¬((_parsePermission ps).2.2 = allResources ∨ (_parsePermission ps).2.2 = defaultResource)) :
    fieldAt (processString ctx st ps).permissions k a = some f := by
  simp only [processString]
  cases hp : (_parsePermission ps).2.1 with
  | none => simp only [hp]; exact hf
  | some action =>
    simp only [hp]
    by_cases hallow : allowedActionValues.contains action = true
    · rw [if_pos hallow]
      have hcond : ((_parsePermission ps).2.2 == allResources
          || (_parsePermission ps).2.2 == defaultResource) = false := by
        simp only [Bool.or_eq_false_iff, beq_eq_false_iff_ne]
        exact ⟨fun h1 => hres (Or.inl h1), fun h2 => hres (Or.inr h2)⟩
      rw [if_neg (by simp [hcond])]
      by_cases hkey : _key ctx (_parsePermission ps).1 = k
      · obtain ⟨b, hg, hball⟩ := fieldAt_exists hf
        rw [hkey]
        unfold fieldAt
        rw [mapGet_mapSet_self]
        simp only [Option.map_some', hg, Option.getD_some]
        have hb : ∀ rs, blockGet b a ≠ .list rs := by
          rcases hmark with hm | hm <;> rw [hball, hm] <;> simp
        rw [blockGet_foldl_push_marker _ _ _ _ hb, hball]
      · unfold fieldAt
        rw [mapGet_mapSet_ne _ _ (fun hh => hkey hh.symm)]
        exact hf
    · rw [if_neg hallow]
      exact hf

theorem foldl_processString_all (ctx k : String) (a : InternalAction) (l : List String)
    (st : PState)
    (h : (l.filterMap (markerOfKey ctx k a)).getLast? = some allResources
       ∨ (l.filterMap (markerOfKey ctx k a) = []
            ∧ fieldAt st.permissions k a = some Resources.all)) :
    fieldAt (l.foldl (processString ctx) st).permissions k a = some Resources.all := by
  induction l generalizing st with
  | nil =>
    rcases h with h | ⟨_, hf⟩
    · simp at h
    · exact hf
  | cons ps rest ih =>
    rw [List.foldl_cons]
    cases hm : markerOfKey ctx k a ps with
    | none =>
      have hfm : (ps :: rest).filterMap (markerOfKey ctx k a)
          = rest.filterMap (markerOfKey ctx k a) := by
        rw [List.filterMap_cons, hm]
      rw [hfm] at h
      apply ih
      rcases h with h | ⟨h1, h2⟩
      · exact Or.inl h
      · exact Or.inr ⟨h1, fieldAt_processString_all st hm h2⟩
    | some r =>
      have hfm : (ps :: rest).filterMap (markerOfKey ctx k a)
          = r :: rest.filterMap (markerOfKey ctx k a) := by
        rw [List.filterMap_cons, hm]
      rw [hfm] at h
      rcases h with h | ⟨h1, _⟩
      · cases hrest : rest.filterMap (markerOfKey ctx k a) with
        | nil =>
          rw [hrest] at h
          have hr : r = allResources := by simpa using h
          subst hr
          apply ih
          refine Or.inr ⟨hrest, ?_⟩
          rw [fieldAt_processString_marker st hm]
          simp
        | cons x xs =>
          rw [hrest, List.getLast?_cons_cons] at h
          apply ih
          exact Or.inl (by rw [hrest]; exact h)
      · simp at h1

theorem fieldAt_optStep_all {m : PMap} {k : String} {a : InternalAction}
    (key : String) (hf : fieldAt m k a = some Resources.all) :
    fieldAt (optStep m key) k a = some Resources.all := by
  unfold optStep
  cases hg : mapGet m key with
  | none => exact hf
  | some b =>
    by_cases hk : k = key
    · subst hk
      obtain ⟨b', hg', hball⟩ := fieldAt_exists hf
      rw [hg'] at hg
      cases hg
      unfold fieldAt
      rw [mapGet_mapSet_self]
      simp only [Option.map_some', blockGet_optimizeBlock, hball]
      rfl
    · unfold fieldAt
      rw [mapGet_mapSet_ne _ _ hk]
      exact hf

theorem fieldAt_optPass_all (changed : List String) (m : PMap) (k : String)
    (a : InternalAction) (hf : fieldAt m k a = some Resources.all) :
    fieldAt (changed.foldl optStep m) k a = some Resources.all := by
  induction changed generalizing m with
  | nil => exact hf
  | cons key rest ih =>
    rw [List.foldl_cons]
    exact ih _ (fieldAt_optStep_all key hf)

theorem processRole_all (m : PMap) (role : Role) (k : String) (a : InternalAction)
    (h : (role.permissions.filterMap (markerOfKey role.context k a)).getLast?
          = some allResources
       ∨ (role.permissions.filterMap (markerOfKey role.context k a) = []
            ∧ fieldAt m k a = some Resources.all)) :
    fieldAt (processRole m role) k a = some Resources.all := by
  unfold processRole
  exact fieldAt_optPass_all _ _ _ _ (foldl_processString_all role.context k a _ ⟨m, []⟩ h)

theorem foldl_processRole_all (roles : List Role) (m : PMap) (k : String) (a : InternalAction)
    (h : (markerStream roles k a).getLast? = some allResources
       ∨ (markerStream roles k a = [] ∧ fieldAt m k a = some Resources.all)) :
    fieldAt (roles.foldl processRole m) k a = some Resources.all := by
  induction roles generalizing m with
  | nil =>
    rcases h with h | ⟨_, hf⟩
    · simp [markerStream] at h
    · exact hf
  | cons role rest ih =>
    have hsplit : markerStream (role :: rest) k a
        = role.permissions.filterMap (markerOfKey role.context k a)
            ++ markerStream rest k a := by
      simp [markerStream]
    rw [hsplit] at h
    rw [List.foldl_cons]
    apply ih
    cases hrest : markerStream rest k a with
    | nil =>
      rw [hrest, List.append_nil] at h
      refine Or.inr ⟨rfl, ?_⟩
      rcases h with h | ⟨hnil, hf⟩
      · exact processRole_all m role k a (Or.inl h)
      · exact processRole_all m role k a (Or.inr ⟨hnil, hf⟩)
    | cons x xs =>
      rcases h with h | ⟨happ, _⟩
      · rw [hrest, List.getLast?_append] at h
        refine Or.inl ?_
        cases hgl : (x :: xs).getLast? with
        | none =>
          rw [List.getLast?_eq_none_iff] at hgl
          simp at hgl
        | some y =>
          rw [hgl] at h
          simp only [Option.or_some] at h
          exact h
      · rw [hrest] at happ
        simp at happ

/-- A role list whose first role grants the ALL resource for
`(local, User, Read)` and whose second role then grants the resource-less
DEFAULT marker for the same triple. -/
def rolesAllThenDefault : List Role :=
  [⟨"A", "a", none, ["User.Read.All"], "local"⟩,
   ⟨"B", "b", none, ["User.Read"], "local"⟩]

/-- C1, counterexample: in `rolesAllThenDefault` a role grants the ALL
resource for the triple `(local, User, Read)`, yet the final compiled field
for that triple is the DEFAULT marker, not ALL — a later role's resource-less
permission overwrites the ALL marker — and reordering the two roles changes
the final compiled state of that triple to ALL. -/
theorem c1_counterexample :
    markerOfKey "local" (_key "local" "User") InternalAction.Read "User.Read.All"
        = some allResources
    ∧ fieldAt (compile rolesAllThenDefault) (_key "local" "User") InternalAction.Read
        = some Resources.dflt
    ∧ some Resources.dflt ≠ some Resources.all
    ∧ fieldAt (compile rolesAllThenDefault.reverse) (_key "local" "User") InternalAction.Read
        = some Resources.all := by decide

/-- C1 (amended): markers are absorbing against specific-resource grants but
a later marker overwrites an earlier one.  Part one: whenever the last marker
granted for a `(context++glue++scope, action)` pair across the role list is
the ALL marker — in particular whenever some role grants ALL and no later
permission grants a marker for that pair — the final compiled field is ALL.
Part two: once a marker (ALL or DEFAULT) occupies an action's field, a
permission string whose resource is specific (not a marker) never changes
that field, so later roles' specific permissions never downgrade it. -/
theorem c1_marker_absorption :
    (∀ (roles : List Role) (k : String) (a : InternalAction),
        (markerStream roles k a).getLast? = some allResources →
        fieldAt (compile roles) k a = some Resources.all)
    ∧ (∀ (ctx : String) (st : PState) (ps k : String) (a : InternalAction) (f : Resources),
        fieldAt st.permissions k a = some f →
        (f = Resources.all ∨ f = Resources.dflt) →
        ¬((_parsePermission ps).2.2 = allResources ∨ (_parsePermission ps).2.2 = defaultResource) →
        fieldAt (processString ctx st ps).permissions k a = some f) := by
  constructor
  · intro roles k a h
    unfold compile
    cases roles with
    | nil => simp [markerStream] at h
    | cons r rs =>
      rw [if_neg (by simp)]
      exact foldl_processRole_all _ _ _ _ (Or.inl h)
  · intro ctx st ps k a f hf hmark hres
    exact fieldAt_processString_sticky st hf hmark hres

/-- C1, witness: both parts of `c1_marker_absorption` applied at concrete
inputs (the reversed counterexample roles, and a one-key state hit by a
specific-resource permission). -/
theorem c1_witness :
    fieldAt (compile rolesAllThenDefault.reverse) (_key "local" "User") InternalAction.Read
        = some Resources.all
    ∧ fieldAt (processString "local"
          ⟨[(_key "local" "User", ⟨Resources.all, Resources.list []⟩)], []⟩
          "User.Read.x").permissions
        (_key "local" "User") InternalAction.Read = some Resources.all := by
  constructor
  · exact c1_marker_absorption.1 rolesAllThenDefault.reverse (_key "local" "User")
      InternalAction.Read (by decide)
  · exact c1_marker_absorption.2 "local"
      ⟨[(_key "local" "User", ⟨Resources.all, Resources.list []⟩)], []⟩
      "User.Read.x" (_key "local" "User") InternalAction.Read Resources.all
      (by decide) (Or.inl rfl) (by decide)

/-- A query string is malformed when its action segment is missing or is not
one of the allowed action tokens. -/
def malformedAction (q : String) : Bool :=
  match (_parsePermission q).2.1 with
  | none => true
  | some a => !(allowedActionValues.contains a)

theorem _check_malformed (m : PMap) (scope : String) (act : Option String) (res c : String)
    (h : (match act with
          | none => true
          | some a => !(allowedActionValues.contains a)) = true) :
    _check m scope act res c = false := by
  unfold _check
  cases hg : mapGet m (_key c scope) with
  | none => rfl
  | some b =>
    cases act with
    | none => simp [expandCheckActions, fieldFor, checkResourceTest]
    | some a =>
      simp only [Bool.not_eq_true'] at h
      have h1 : a ≠ "Read" := fun hh => by subst hh; simp [allowedActionValues] at h
      have h2 : a ≠ "Write" := fun hh => by subst hh; simp [allowedActionValues] at h
      have h3 : a ≠ "ReadWrite" := fun hh => by subst hh; simp [allowedActionValues] at h
      simp [expandCheckActions, beq_iff_eq, h3, fieldFor, h1, h2, checkResourceTest]

theorem _checkAction_malformed (m : PMap) (scope : String) (act : Option String) (c : String)
    (h : (match act with
          | none => true
          | some a => !(allowedActionValues.contains a)) = true) :
    _checkAction m scope act c = false := by
  unfold _checkAction
  cases hg : mapGet m (_key c scope) with
  | none => rfl
  | some b =>
    cases act with
    | none => simp [expandCheckActions, fieldFor, checkActionTest]
    | some a =>
      simp only [Bool.not_eq_true'] at h
      have h1 : a ≠ "Read" := fun hh => by subst hh; simp [allowedActionValues] at h
      have h2 : a ≠ "Write" := fun hh => by subst hh; simp [allowedActionValues] at h
      have h3 : a ≠ "ReadWrite" := fun hh => by subst hh; simp [allowedActionValues] at h
      simp [expandCheckActions, beq_iff_eq, h3, fieldFor, h1, h2, checkActionTest]

/-- C5: for every role list, a query string whose action segment is missing
or not one of `Read`, `Write`, `ReadWrite` makes every boolean query
operation return false (the engine is total by construction, so no query
throws; malformed queries are indistinguishable from denial). -/
theorem c5_malformed_query_leniency (roles : List Role) (q : String)
    (h : malformedAction q = true) :
    checkLocal roles q = false ∧ checkGlobal roles q = false ∧ check roles q = false
    ∧ checkActionLocal roles q = false ∧ checkActionGlobal roles q = false
    ∧ checkAction roles q = false := by
  unfold malformedAction at h
  refine ⟨?_, ?_, ?_, ?_, ?_, ?_⟩
  · exact _check_malformed _ _ _ _ _ h
  · exact _check_malformed _ _ _ _ _ h
  · simp only [check]
    rw [_check_malformed _ _ _ _ _ h, _check_malformed _ _ _ _ _ h]
    rfl
  · exact _checkAction_malformed _ _ _ _ h
  · exact _checkAction_malformed _ _ _ _ h
  · simp only [checkAction]
    rw [_checkAction_malformed _ _ _ _ h, _checkAction_malformed _ _ _ _ h]
    rfl

/-- C5, witness: the theorem applied to a concrete role list and the
malformed queries `"User"` (missing action) and `"User.Foo.x"`. -/
theorem c5_witness :
    (checkLocal rolesAllThenDefault "User" = false
      ∧ checkGlobal rolesAllThenDefault "User" = false
      ∧ check rolesAllThenDefault "User" = false
      ∧ checkActionLocal rolesAllThenDefault "User" = false
      ∧ checkActionGlobal rolesAllThenDefault "User" = false
      ∧ checkAction rolesAllThenDefault "User" = false)
    ∧ check rolesAllThenDefault "User.Foo.x" = false := by
  constructor
  · exact c5_malformed_query_leniency rolesAllThenDefault "User" (by decide)
  · exact (c5_malformed_query_leniency rolesAllThenDefault "User.Foo.x" (by decide)).2.2.1

theorem checkResourceTest_implies_actionTest (fld : Option Resources) (r : String)
    (h : checkResourceTest fld r = true) : checkActionTest fld = true := by
  cases fld with
  | none => simp [checkResourceTest] at h
  | some f =>
    cases f with
    | all => rfl
    | dflt => rfl
    | list rs =>
      simp only [checkResourceTest] at h
      have hmem : r ∈ rs := by simpa using h
      have hne : rs ≠ [] := List.ne_nil_of_mem hmem
      simp [checkActionTest, List.length_pos, hne]

theorem _check_implies_checkAction (m : PMap) (scope : String) (act : Option String)
    (res c : String) (h : _check m scope act res c = true) :
    _checkAction m scope act c = true := by
  unfold _check at h
  unfold _checkAction
  cases hg : mapGet m (_key c scope) with
  | none => rw [hg] at h; simp at h
  | some b =>
    rw [hg] at h
    rw [List.all_eq_true] at h ⊢
    intro a ha
    exact checkResourceTest_implies_actionTest _ _ (h a ha)

/-- C10: the full check is at least as strong as the action-only check, for
every role list and query string and in each context variant. -/
theorem c10_check_implies_checkAction (roles : List Role) (p : String) :
    (checkLocal roles p = true → checkActionLocal roles p = true)
    ∧ (checkGlobal roles p = true → checkActionGlobal roles p = true)
    ∧ (check roles p = true → checkAction roles p = true) := by
  refine ⟨?_, ?_, ?_⟩
  · intro h
    exact _check_implies_checkAction _ _ _ _ _ h
  · intro h
    exact _check_implies_checkAction _ _ _ _ _ h
  · intro h
    simp only [check] at h
    rw [Bool.or_eq_true] at h
    simp only [checkAction]
    rw [Bool.or_eq_true]
    rcases h with h | h
    · exact Or.inl (_check_implies_checkAction _ _ _ _ _ h)
    · exact Or.inr (_check_implies_checkAction _ _ _ _ _ h)

/-- A single role granting only the specific resource `x` for `User.Read`. -/
def rolesSpecificRead : List Role :=
  [⟨"A", "a", none, ["User.Read.x"], "local"⟩]

/-- C10, witness: all three implications applied at a concrete role list and
query for which the full check succeeds. -/
theorem c10_witness :
    checkActionLocal rolesSpecificRead "User.Read.x" = true
    ∧ checkAction rolesSpecificRead "User.Read.x" = true := by
  constructor
  · exact (c10_check_implies_checkAction rolesSpecificRead "User.Read.x").1 (by decide)
  · exact (c10_check_implies_checkAction rolesSpecificRead "User.Read.x").2.2 (by decide)

theorem optStep_keyPred {m : PMap} {key : String} {P : String → Prop}
    (hm : ∀ p ∈ m, P p.1) : ∀ p ∈ optStep m key, P p.1 := by
  intro p hp
  unfold optStep at hp
  cases hg : mapGet m key with
  | none => rw [hg] at hp; exact hm p hp
  | some b =>
    rw [hg] at hp
    rcases mem_mapSet hp with h | h
    · have hx := hm _ (mapGet_mem hg)
      rw [h]
      simpa using hx
    · exact hm p h

theorem processString_keyPred {ctx : String} {P : String → Prop} (st : PState) (ps : String)
    (hP : ∀ s, P (_key ctx s)) (hm : ∀ p ∈ st.permissions, P p.1) :
    ∀ p ∈ (processString ctx st ps).permissions, P p.1 := by
  intro p hp
  simp only [processString] at hp
  cases hpa : (_parsePermission ps).2.1 with
  | none => simp only [hpa] at hp; exact hm p hp
  | some action =>
    simp only [hpa] at hp
    by_cases hallow : allowedActionValues.contains action = true
    · rw [if_pos hallow] at hp
      simp only at hp
      rcases mem_mapSet hp with h | h
      · rw [h]; exact hP _
      · exact hm p h
    · rw [if_neg hallow] at hp
      exact hm p hp

theorem processRole_keyPred {P : String → Prop} (m : PMap) (role : Role)
    (hP : ∀ s, P (_key role.context s)) (hm : ∀ p ∈ m, P p.1) :
    ∀ p ∈ processRole m role, P p.1 := by
  unfold processRole
  have hfold : ∀ (l : List String) (st : PState),
      (∀ p ∈ st.permissions, P p.1) →
      ∀ p ∈ (l.foldl (processString role.context) st).permissions, P p.1 := by
    intro l
    induction l with
    | nil => intro st h; exact h
    | cons ps rest ih =>
      intro st h
      rw [List.foldl_cons]
      exact ih _ (processString_keyPred st ps hP h)
  have hopt : ∀ (keys : List String) (m' : PMap),
      (∀ p ∈ m', P p.1) → ∀ p ∈ keys.foldl optStep m', P p.1 := by
    intro keys
    induction keys with
    | nil => intro m' h; exact h
    | cons key rest ih =>
      intro m' h
      rw [List.foldl_cons]
      exact ih _ (optStep_keyPred h)
  exact hopt _ _ (hfold role.permissions ⟨m, []⟩ hm)

theorem compile_keyPred {P : String → Prop} (roles : List Role)
    (hP : ∀ r ∈ roles, ∀ s, P (_key r.context s)) :
    ∀ p ∈ compile roles, P p.1 := by
  unfold compile
  cases hr : roles with
  | nil => simp
  | cons r rs =>
    rw [if_neg (by simp)]
    rw [← hr]
    have : ∀ (l : List Role) (m : PMap), (∀ r' ∈ l, ∀ s, P (_key r'.context s)) →
        (∀ p ∈ m, P p.1) → ∀ p ∈ l.foldl processRole m, P p.1 := by
      intro l
      induction l with
      | nil => intro m _ h; exact h
      | cons role rest ih =>
        intro m hl h
        rw [List.foldl_cons]
        exact ih _ (fun r' hr' => hl r' (List.mem_cons_of_mem _ hr'))
          (processRole_keyPred m role (hl role (List.mem_cons_self _ _)) h)
    exact this roles [] (by rw [hr]; exact fun r' hr' => hP r' (hr ▸ hr')) (by simp)

theorem global_key_ne_local_key (x y : String) : _key "global" x ≠ _key "local" y := by
  intro h
  have hd := congrArg String.data h
  simp only [_key, String.data_append] at hd
  rw [show keyGlue.data = [':'] from rfl] at hd
  simp only [List.cons_append, List.nil_append, List.cons.injEq] at hd
  exact absurd hd.1 (by decide)

/-- C6: context isolation.  Part one: if every role is in the `local` context
then `checkGlobal` answers false on every query; part two: symmetrically for
`global` roles and `checkLocal`; part three: `check` is exactly the
disjunction of `checkLocal` and `checkGlobal` on every query. -/
theorem c6_context_isolation :
    (∀ (roles : List Role) (q : String), (∀ r ∈ roles, r.context = "local") →
        checkGlobal roles q = false)
    ∧ (∀ (roles : List Role) (q : String), (∀ r ∈ roles, r.context = "global") →
        checkLocal roles q = false)
    ∧ (∀ (roles : List Role) (q : String),
        check roles q = (checkLocal roles q || checkGlobal roles q)) := by
  refine ⟨?_, ?_, fun roles q => rfl⟩
  · intro roles q hctx
    have hkeys : ∀ p ∈ compile roles, ∃ s, p.1 = _key "local" s :=
      compile_keyPred (P := fun k => ∃ s, k = _key "local" s) roles
        (fun r hr s => ⟨s, by rw [hctx r hr]⟩)
    simp only [checkGlobal]
    unfold _check
    cases hg : mapGet (compile roles) (_key "global" (_parsePermission q).1) with
    | none => rfl
    | some b =>
      obtain ⟨s, hs⟩ := hkeys _ (mapGet_mem hg)
      exact absurd hs (global_key_ne_local_key _ s)
  · intro roles q hctx
    have hkeys : ∀ p ∈ compile roles, ∃ s, p.1 = _key "global" s :=
      compile_keyPred (P := fun k => ∃ s, k = _key "global" s) roles
        (fun r hr s => ⟨s, by rw [hctx r hr]⟩)
    simp only [checkLocal]
    unfold _check
    cases hg : mapGet (compile roles) (_key "local" (_parsePermission q).1) with
    | none => rfl
    | some b =>
      obtain ⟨s, hs⟩ := hkeys _ (mapGet_mem hg)
      exact absurd hs.symm (global_key_ne_local_key s _)

/-- A single role granting `User.Read` in the global context. -/
def rolesGlobalDefault : List Role :=
  [⟨"A", "a", none, ["User.Read"], "global"⟩]

/-- C6, witness: the two isolation parts applied at concrete role lists whose
grants would match the query in their own context. -/
theorem c6_witness :
    checkGlobal rolesSpecificRead "User.Read.x" = false
    ∧ checkLocal rolesGlobalDefault "User.Read" = false := by
  constructor
  · exact c6_context_isolation.1 rolesSpecificRead "User.Read.x" (by decide)
  · exact c6_context_isolation.2.1 rolesGlobalDefault "User.Read" (by decide)

/-- Field condition of the amended full match rule: the field is ALL, or is
DEFAULT (matching regardless of the query's resource), or is a specific set
containing the query's resource; a missing field matches nothing. -/
def FieldMatches (fld : Option Resources) (resource : String) : Prop :=
  fld = some Resources.all ∨ fld = some Resources.dflt
    ∨ ∃ rs, fld = some (Resources.list rs) ∧ resource ∈ rs

/-- The amended full match rule for one target context: the block for
`(context, scope)` exists and every action obtained by expanding `ReadWrite`
satisfies `FieldMatches` for the query's resource. -/
def MatchesIn (roles : List Role) (context : String) (q : String) : Prop :=
  ∃ b, mapGet (compile roles) (_key context (_parsePermission q).1) = some b
    ∧ ∀ a ∈ expandCheckActions (_parsePermission q).2.1,
        FieldMatches (fieldFor b a) (_parsePermission q).2.2

theorem checkResourceTest_iff (fld : Option Resources) (r : String) :
    checkResourceTest fld r = true ↔ FieldMatches fld r := by
  cases fld with
  | none => simp [checkResourceTest, FieldMatches]
  | some f => cases f <;> simp [checkResourceTest, FieldMatches]

theorem _check_iff (m : PMap) (scope : String) (act : Option String) (res c : String) :
    _check m scope act res c = true
      ↔ ∃ b, mapGet m (_key c scope) = some b
          ∧ ∀ a ∈ expandCheckActions act, FieldMatches (fieldFor b a) res := by
  unfold _check
  cases hg : mapGet m (_key c scope) with
  | none => simp
  | some b => simp [List.all_eq_true, checkResourceTest_iff]

/-- A single role whose only permission is the resource-less `User.Read`,
compiling the Read field to the DEFAULT marker. -/
def rolesDefaultRead : List Role :=
  [⟨"A", "a", none, ["User.Read"], "local"⟩]

/-- C2, counterexample: the compiled Read field of `rolesDefaultRead` is the
DEFAULT marker and the query `User.Read.someX` names an explicit resource,
yet `checkLocal` returns true — a DEFAULT field does satisfy a query naming
an explicit resource, contradicting the claim's match rule. -/
theorem c2_counterexample :
    fieldAt (compile rolesDefaultRead) (_key "local" "User") InternalAction.Read
        = some Resources.dflt
    ∧ (_parsePermission "User.Read.someX").2.2 = "someX"
    ∧ "someX" ≠ defaultResource
    ∧ checkLocal rolesDefaultRead "User.Read.someX" = true := by decide

/-- C2 (amended): full match rule where a DEFAULT field matches every query
resource.  `checkLocal` / `checkGlobal` succeed exactly when the block for
the target `(context, scope)` exists and every expanded action's field is
ALL, or DEFAULT, or a specific set containing the query's resource; `check`
succeeds exactly when one of the two contexts matches. -/
theorem c2_full_match_rule (roles : List Role) (q : String) :
    (checkLocal roles q = true ↔ MatchesIn roles "local" q)
    ∧ (checkGlobal roles q = true ↔ MatchesIn roles "global" q)
    ∧ (check roles q = true ↔ (MatchesIn roles "local" q ∨ MatchesIn roles "global" q)) := by
  refine ⟨?_, ?_, ?_⟩
  · simp only [checkLocal]
    exact _check_iff _ _ _ _ _
  · simp only [checkGlobal]
    exact _check_iff _ _ _ _ _
  · simp only [check, Bool.or_eq_true]
    exact or_congr (_check_iff _ _ _ _ _) (_check_iff _ _ _ _ _)

/-- Field condition of the action-only match rule: the field is ALL, DEFAULT,
or a non-empty specific set. -/
def ActionFieldNonEmpty (fld : Option Resources) : Prop :=
  fld = some Resources.all ∨ fld = some Resources.dflt
    ∨ ∃ rs, fld = some (Resources.list rs) ∧ rs ≠ []

/-- The action-only match rule for one target context. -/
def HasActionIn (roles : List Role) (context : String) (q : String) : Prop :=
  ∃ b, mapGet (compile roles) (_key context (_parsePermission q).1) = some b
    ∧ ∀ a ∈ expandCheckActions (_parsePermission q).2.1, ActionFieldNonEmpty (fieldFor b a)

theorem checkActionTest_iff (fld : Option Resources) :
    checkActionTest fld = true ↔ ActionFieldNonEmpty fld := by
  cases fld with
  | none => simp [checkActionTest, ActionFieldNonEmpty]
  | some f =>
    cases f with
    | all => simp [checkActionTest, ActionFieldNonEmpty]
    | dflt => simp [checkActionTest, ActionFieldNonEmpty]
    | list rs => simp [checkActionTest, ActionFieldNonEmpty, List.length_pos]

theorem _checkAction_iff (m : PMap) (scope : String) (act : Option String) (c : String) :
    _checkAction m scope act c = true
      ↔ ∃ b, mapGet m (_key c scope) = some b
          ∧ ∀ a ∈ expandCheckActions act, ActionFieldNonEmpty (fieldFor b a) := by
  unfold _checkAction
  cases hg : mapGet m (_key c scope) with
  | none => simp
  | some b => simp [List.all_eq_true, checkActionTest_iff]

/-- A single role granting `User.Read` on the specific resource `reportA`. -/
def rolesReportA : List Role :=
  [⟨"A", "a", none, ["User.Read.reportA"], "local"⟩]

/-- C9: the action-only checks ignore the query's resource — they succeed
exactly when the block for the target `(context, scope)` exists and every
expanded action's field is ALL, DEFAULT, or a non-empty specific set (a
characterization that never mentions the resource); concretely, with a Read
field equal to the specific set `{reportA}`, `checkAction` succeeds with and
without a resource segment while the full `check` of `User.Read.reportB`
fails. -/
theorem c9_action_only_match :
    (∀ (roles : List Role) (q : String),
      (checkActionLocal roles q = true ↔ HasActionIn roles "local" q)
      ∧ (checkActionGlobal roles q = true ↔ HasActionIn roles "global" q)
      ∧ (checkAction roles q = true
          ↔ (HasActionIn roles "local" q ∨ HasActionIn roles "global" q)))
    ∧ fieldAt (compile rolesReportA) (_key "local" "User") InternalAction.Read
        = some (Resources.list ["reportA"])
    ∧ checkAction rolesReportA "User.Read" = true
    ∧ checkAction rolesReportA "User.Read.reportB" = true
    ∧ check rolesReportA "User.Read.reportB" = false := by
  refine ⟨fun roles q => ⟨?_, ?_, ?_⟩, by decide, by decide, by decide, by decide⟩
  · simp only [checkActionLocal]
    exact _checkAction_iff _ _ _ _
  · simp only [checkActionGlobal]
    exact _checkAction_iff _ _ _ _
  · simp only [checkAction, Bool.or_eq_true]
    exact or_congr (_checkAction_iff _ _ _ _) (_checkAction_iff _ _ _ _)

/-- The claim's subsumption relation on resource states (§3 invariant of the
spec): ALL subsumes everything, DEFAULT subsumes only the no-resource
(DEFAULT) state, a specific set subsumes exactly the specific sets included
in it. -/
def specSubsumes (other this : Resources) : Bool :=
  match other, this with
  | .all, _ => true
  | .dflt, .dflt => true
  | .dflt, _ => false
  | .list o, .list t => t.all fun r => o.contains r
  | .list _, _ => false

/-- A single role whose Read state is the DEFAULT marker and whose Write
state is the specific set `{x}`. -/
def rolesDefaultWriteX : List Role :=
  [⟨"A", "a", none, ["User.Read", "User.Write.x"], "local"⟩]

/-- C3, counterexample: the Write-derived entry of `unwrap` carries
`read = true` although the Read state (the DEFAULT marker) does not subsume
the Write state (the specific set `{x}`) under the claim's subsumption,
which lets DEFAULT subsume nothing outside no-resource permissions. -/
theorem c3_counterexample :
    unwrap rolesDefaultWriteX
      = [⟨"local", "User", true, false, Resources.dflt⟩,
         ⟨"local", "User", true, true, Resources.list ["x"]⟩]
    ∧ specSubsumes Resources.dflt (Resources.list ["x"]) = false := by decide

/-- Subsumption as the source's `includes` implements it: a marker state
(ALL or DEFAULT) subsumes every state, while a specific set subsumes exactly
the specific sets included in it. -/
def subsumesAmended (other this : Resources) : Bool :=
  match other with
  | .all => true
  | .dflt => true
  | .list o =>
    match this with
    | .list t => t.all fun r => o.contains r
    | _ => false

/-- The collapse rule of the amended claim, written from the spec's words:
one entry with both flags when the two action states are identical, else one
entry per non-empty action whose opposite flag records whether the other
action's state subsumes this entry's state, with `subsumesAmended` as the
subsumption. -/
def collapseSpec (key : String) (block : PermissionBlock) : List Permission :=
  let cs := _unKey key
  if equalsRes block.Read block.Write then
    [⟨cs.1, cs.2, true, true, block.Read⟩]
  else
    (if equalsRes block.Read (.list []) then []
     else [⟨cs.1, cs.2, true, subsumesAmended block.Write block.Read, block.Read⟩]) ++
    (if equalsRes block.Write (.list []) then []
     else [⟨cs.1, cs.2, subsumesAmended block.Read block.Write, true, block.Write⟩])

theorem includesRes_eq_subsumesAmended (a b : Resources) :
    includesRes a b = subsumesAmended a b := by
  cases a <;> cases b <;> rfl

/-- The scenario-B role list of the spec (the repository's `localRoles`
test fixture). -/
def rolesScenarioB : List Role :=
  [⟨"LOCAL", "Local role", some "Local role",
    ["User.ReadWrite.All", "Report.Read.All", "Report.ReadWrite.someReport"], "local"⟩]

/-- C3 (amended): every compiled block collapses per `collapseSpec` — one
both-flag entry when Read and Write states are identical, else one entry per
non-empty action whose opposite flag is set exactly when the other action's
state subsumes this entry's state, where a marker state (ALL or DEFAULT)
subsumes any state — and the scenario-B role list yields exactly the three
entries the spec lists. -/
theorem c3_collapse_rule :
    (∀ (key : String) (block : PermissionBlock),
        _collapse key block = collapseSpec key block)
    ∧ unwrap rolesScenarioB
        = [⟨"local", "User", true, true, Resources.all⟩,
           ⟨"local", "Report", true, false, Resources.all⟩,
           ⟨"local", "Report", true, true, Resources.list ["someReport"]⟩] := by
  constructor
  · intro key block
    unfold _collapse collapseSpec
    rw [includesRes_eq_subsumesAmended, includesRes_eq_subsumesAmended]
  · decide

theorem processString_invalid (ctx : String) (st : PState) (ps : String)
    (h : malformedAction ps = true) : processString ctx st ps = st := by
  unfold malformedAction at h
  simp only [processString]
  cases hp : (_parsePermission ps).2.1 with
  | none => simp [hp]
  | some a =>
    simp only [hp] at h ⊢
    simp only [Bool.not_eq_true'] at h
    rw [if_neg (by rw [h]; exact Bool.false_ne_true)]

/-- C7: compilation is total (the embedding is a total function by
construction) and a permission string whose action token is missing or not
one of `Read`, `Write`, `ReadWrite` is silently skipped — the compiled map
is exactly the one obtained with that single string removed from the role's
permission list. -/
theorem c7_compile_skips_invalid (pre post : List Role) (rid rnm : String)
    (rd : Option String) (ctx : String) (ps1 ps2 : List String) (bad : String)
    (hbad : malformedAction bad = true) :
    compile (pre ++ ⟨rid, rnm, rd, ps1 ++ bad :: ps2, ctx⟩ :: post)
      = compile (pre ++ ⟨rid, rnm, rd, ps1 ++ ps2, ctx⟩ :: post) := by
  have hrole : ∀ m : PMap,
      processRole m ⟨rid, rnm, rd, ps1 ++ bad :: ps2, ctx⟩
        = processRole m ⟨rid, rnm, rd, ps1 ++ ps2, ctx⟩ := by
    intro m
    unfold processRole
    dsimp only
    rw [List.foldl_append, List.foldl_cons, processString_invalid ctx _ bad hbad,
      ← List.foldl_append]
  unfold compile
  rw [if_neg (by simp), if_neg (by simp)]
  rw [List.foldl_append, List.foldl_append, List.foldl_cons, List.foldl_cons, hrole]

/-- C7, witness: the theorem applied at a concrete role list containing the
invalid-action string `User.Foo.y`. -/
theorem c7_witness :
    compile [⟨"A", "a", none, ["User.Read.x", "User.Foo.y"], "local"⟩]
      = compile [⟨"A", "a", none, ["User.Read.x"], "local"⟩] :=
  c7_compile_skips_invalid [] [] "A" "a" none "local" ["User.Read.x"] [] "User.Foo.y"
    (by decide)

/-- Build a three-segment permission string `scope.action.resource`. -/
def mkPermString (scope action resource : String) : String :=
  scope ++ "." ++ action ++ "." ++ resource

theorem parse_mkPermString (s a r : String) (hs : '.' ∉ s.data) (ha : '.' ∉ a.data)
    (hr : '.' ∉ r.data) : _parsePermission (mkPermString s a r) = (s, some a, r) :=
  parse_three s a r hs ha hr

theorem compile_singleton (r : Role) : compile [r] = processRole [] r := by
  unfold compile
  rw [if_neg (by simp)]
  rw [List.foldl_cons, List.foldl_nil]

theorem compile_pair (r1 r2 : Role) :
    compile [r1, r2] = processRole (processRole [] r1) r2 := by
  unfold compile
  rw [if_neg (by simp)]
  rw [List.foldl_cons, List.foldl_cons, List.foldl_nil]

/-- C8: compiling a role with the single permission string
`s.ReadWrite.X` yields a compiled state identical to compiling the same role
with the two permission strings `s.Read.X` and `s.Write.X`, so every query
answers identically on the two compilations. -/
theorem c8_readwrite_equivalence (ctx rid rnm : String) (rd : Option String)
    (s X : String) (hs : '.' ∉ s.data) (hX : '.' ∉ X.data) :
    compile [⟨rid, rnm, rd, [mkPermString s "ReadWrite" X], ctx⟩]
      = compile [⟨rid, rnm, rd, [mkPermString s "Read" X, mkPermString s "Write" X], ctx⟩]
    ∧ ∀ q : String,
        check [⟨rid, rnm, rd, [mkPermString s "ReadWrite" X], ctx⟩] q
          = check [⟨rid, rnm, rd, [mkPermString s "Read" X, mkPermString s "Write" X], ctx⟩] q
        ∧ checkLocal [⟨rid, rnm, rd, [mkPermString s "ReadWrite" X], ctx⟩] q
          = checkLocal [⟨rid, rnm, rd, [mkPermString s "Read" X, mkPermString s "Write" X], ctx⟩] q
        ∧ checkGlobal [⟨rid, rnm, rd, [mkPermString s "ReadWrite" X], ctx⟩] q
          = checkGlobal [⟨rid, rnm, rd, [mkPermString s "Read" X, mkPermString s "Write" X], ctx⟩] q
        ∧ checkAction [⟨rid, rnm, rd, [mkPermString s "ReadWrite" X], ctx⟩] q
          = checkAction [⟨rid, rnm, rd, [mkPermString s "Read" X, mkPermString s "Write" X], ctx⟩] q
        ∧ checkActionLocal [⟨rid, rnm, rd, [mkPermString s "ReadWrite" X], ctx⟩] q
          = checkActionLocal [⟨rid, rnm, rd, [mkPermString s "Read" X, mkPermString s "Write" X], ctx⟩] q
        ∧ checkActionGlobal [⟨rid, rnm, rd, [mkPermString s "ReadWrite" X], ctx⟩] q
          = checkActionGlobal [⟨rid, rnm, rd, [mkPermString s "Read" X, mkPermString s "Write" X], ctx⟩] q
        ∧ unwrap [⟨rid, rnm, rd, [mkPermString s "ReadWrite" X], ctx⟩]
          = unwrap [⟨rid, rnm, rd, [mkPermString s "Read" X, mkPermString s "Write" X], ctx⟩] := by
  have hRW := parse_mkPermString s "ReadWrite" X hs (by decide) hX
  have hR := parse_mkPermString s "Read" X hs (by decide) hX
  have hW := parse_mkPermString s "Write" X hs (by decide) hX
  have hcomp : compile [⟨rid, rnm, rd, [mkPermString s "ReadWrite" X], ctx⟩]
      = compile [⟨rid, rnm, rd, [mkPermString s "Read" X, mkPermString s "Write" X], ctx⟩] := by
    rw [compile_singleton, compile_singleton]
    unfold processRole
    dsimp only
    rw [List.foldl_cons, List.foldl_nil, List.foldl_cons, List.foldl_cons, List.foldl_nil]
    simp only [processString, hRW, hR, hW, expandValid]
    by_cases hcA : X = allResources
    · subst hcA
      simp [allowedActionValues, mapGet, mapSet, optStep, optimizeBlock, optimizeResources,
        blockSet, blockGet]
    · by_cases hcD : X = defaultResource
      · subst hcD
        have hda : ¬defaultResource = allResources := by decide
        simp [allowedActionValues, hda, mapGet, mapSet, optStep, optimizeBlock,
          optimizeResources, blockSet, blockGet]
      · have hcA' : ¬allResources = X := fun h => hcA h.symm
        have hcD' : ¬defaultResource = X := fun h => hcD h.symm
        simp [allowedActionValues, hcA, hcD, hcA', hcD', mapGet, mapSet, optStep,
          optimizeBlock, optimizeResources, blockSet, blockGet, pushResource]
  refine ⟨hcomp, fun q => ?_⟩
  simp [check, checkLocal, checkGlobal, checkAction, checkActionLocal,
    checkActionGlobal, unwrap, hcomp]

/-- C8, witness: the theorem applied at concrete context, scope and
resource. -/
theorem c8_witness :
    compile [⟨"A", "a", none, [mkPermString "User" "ReadWrite" "x"], "local"⟩]
      = compile [⟨"A", "a", none,
          [mkPermString "User" "Read" "x", mkPermString "User" "Write" "x"], "local"⟩] :=
  (c8_readwrite_equivalence "local" "A" "a" none "User" "x" (by decide) (by decide)).1

/-- The permission-string token of an internal action. -/
def tokenOf : InternalAction → String
  | .Read => "Read"
  | .Write => "Write"

theorem tokenOf_dot_free (act : InternalAction) : '.' ∉ (tokenOf act).data := by
  cases act <;> decide

theorem compile_two_specific (ctx rid rnm : String) (rd : Option String) (s A B : String)
    (act : InternalAction) (hs : '.' ∉ s.data) (hA : '.' ∉ A.data) (hB : '.' ∉ B.data)
    (hAa : A ≠ allResources) (hAd : A ≠ defaultResource)
    (hBa : B ≠ allResources) (hBd : B ≠ defaultResource) :
    compile [⟨rid, rnm, rd,
        [mkPermString s (tokenOf act) A, mkPermString s (tokenOf act) B], ctx⟩]
      = [(_key ctx s, blockSet ⟨.list [], .list []⟩ act (.list [A, B]))] := by
  have hpA := parse_mkPermString s (tokenOf act) A hs (tokenOf_dot_free act) hA
  have hpB := parse_mkPermString s (tokenOf act) B hs (tokenOf_dot_free act) hB
  have hAa' : ¬allResources = A := fun h => hAa h.symm
  have hAd' : ¬defaultResource = A := fun h => hAd h.symm
  have hBa' : ¬allResources = B := fun h => hBa h.symm
  have hBd' : ¬defaultResource = B := fun h => hBd h.symm
  rw [compile_singleton]
  unfold processRole
  dsimp only
  rw [List.foldl_cons, List.foldl_cons, List.foldl_nil]
  cases act
  all_goals
    simp only [tokenOf] at hpA hpB ⊢
    simp [processString, hpA, hpB, expandValid, allowedActionValues,
      hAa, hAd, hBa, hBd, hAa', hAd', hBa', hBd',
      mapGet, mapSet, optStep, optimizeBlock, optimizeResources, blockSet, blockGet,
      pushResource]

theorem compile_split_roles (ctx rid rnm rid2 rnm2 : String) (rd rd2 : Option String)
    (s A B : String) (act : InternalAction)
    (hs : '.' ∉ s.data) (hA : '.' ∉ A.data) (hB : '.' ∉ B.data)
    (hAa : A ≠ allResources) (hAd : A ≠ defaultResource)
    (hBa : B ≠ allResources) (hBd : B ≠ defaultResource) :
    compile [⟨rid, rnm, rd, [mkPermString s (tokenOf act) A], ctx⟩,
             ⟨rid2, rnm2, rd2, [mkPermString s (tokenOf act) B], ctx⟩]
      = [(_key ctx s, blockSet ⟨.list [], .list []⟩ act (.list [A, B]))] := by
  have hpA := parse_mkPermString s (tokenOf act) A hs (tokenOf_dot_free act) hA
  have hpB := parse_mkPermString s (tokenOf act) B hs (tokenOf_dot_free act) hB
  have hAa' : ¬allResources = A := fun h => hAa h.symm
  have hAd' : ¬defaultResource = A := fun h => hAd h.symm
  have hBa' : ¬allResources = B := fun h => hBa h.symm
  have hBd' : ¬defaultResource = B := fun h => hBd h.symm
  rw [compile_pair]
  unfold processRole
  dsimp only
  rw [List.foldl_cons, List.foldl_nil, List.foldl_cons, List.foldl_nil]
  cases act
  all_goals
    simp only [tokenOf] at hpA hpB ⊢
    simp [processString, hpA, hpB, expandValid, allowedActionValues,
      hAa, hAd, hBa, hBd, hAa', hAd', hBa', hBd',
      mapGet, mapSet, optStep, optimizeBlock, optimizeResources, blockSet, blockGet,
      pushResource]

theorem compile_specific_then_all (ctx rid rnm : String) (rd : Option String)
    (s A B : String) (act : InternalAction)
    (hs : '.' ∉ s.data) (hA : '.' ∉ A.data) (hB : '.' ∉ B.data)
    (hAa : A ≠ allResources) (hAd : A ≠ defaultResource)
    (hBa : B ≠ allResources) (hBd : B ≠ defaultResource) :
    compile [⟨rid, rnm, rd,
        [mkPermString s (tokenOf act) A, mkPermString s (tokenOf act) B,
         mkPermString s (tokenOf act) allResources], ctx⟩]
      = [(_key ctx s, blockSet ⟨.list [], .list []⟩ act Resources.all)] := by
  have hpA := parse_mkPermString s (tokenOf act) A hs (tokenOf_dot_free act) hA
  have hpB := parse_mkPermString s (tokenOf act) B hs (tokenOf_dot_free act) hB
  have hpAll := parse_mkPermString s (tokenOf act) allResources hs (tokenOf_dot_free act)
    (by decide)
  have hAa' : ¬allResources = A := fun h => hAa h.symm
  have hAd' : ¬defaultResource = A := fun h => hAd h.symm
  have hBa' : ¬allResources = B := fun h => hBa h.symm
  have hBd' : ¬defaultResource = B := fun h => hBd h.symm
  rw [compile_singleton]
  unfold processRole
  dsimp only
  rw [List.foldl_cons, List.foldl_cons, List.foldl_cons, List.foldl_nil]
  cases act
  all_goals
    simp only [tokenOf] at hpA hpB hpAll ⊢
    simp [processString, hpA, hpB, hpAll, expandValid, allowedActionValues,
      hAa, hAd, hBa, hBd, hAa', hAd', hBa', hBd',
      mapGet, mapSet, optStep, optimizeBlock, optimizeResources, blockSet, blockGet,
      pushResource]

theorem fieldFor_congr_test (b1 b2 : PermissionBlock) (res : String)
    (h : ∀ a : InternalAction,
      checkResourceTest (some (blockGet b1 a)) res
        = checkResourceTest (some (blockGet b2 a)) res) :
    ∀ a : Option String,
      checkResourceTest (fieldFor b1 a) res = checkResourceTest (fieldFor b2 a) res := by
  intro a
  cases a with
  | none => rfl
  | some x =>
    simp only [fieldFor]
    by_cases h1 : (x == "Read") = true
    · rw [if_pos h1, if_pos h1]
      exact h .Read
    · rw [if_neg h1, if_neg h1]
      by_cases h2 : (x == "Write") = true
      · rw [if_pos h2, if_pos h2]
        exact h .Write
      · rw [if_neg h2, if_neg h2]

theorem _check_block_congr (k : String) (b1 b2 : PermissionBlock)
    (h : ∀ (a : InternalAction) (r : String),
      checkResourceTest (some (blockGet b1 a)) r = checkResourceTest (some (blockGet b2 a)) r)
    (scope : String) (act : Option String) (res c : String) :
    _check [(k, b1)] scope act res c = _check [(k, b2)] scope act res c := by
  unfold _check
  have hf := fieldFor_congr_test b1 b2 res (fun a => h a res)
  by_cases hk : (k == _key c scope) = true
  · simp only [mapGet, hk, if_true]
    by_cases hrw : (act == some "ReadWrite") = true
    · simp [expandCheckActions, hrw, hf (some "Read"), hf (some "Write")]
    · simp [expandCheckActions, hrw, hf act]
  · simp [mapGet, hk]

theorem fieldFor_congr_actionTest (b1 b2 : PermissionBlock)
    (h : ∀ a : InternalAction,
      checkActionTest (some (blockGet b1 a)) = checkActionTest (some (blockGet b2 a))) :
    ∀ a : Option String, checkActionTest (fieldFor b1 a) = checkActionTest (fieldFor b2 a) := by
  intro a
  cases a with
  | none => rfl
  | some x =>
    simp only [fieldFor]
    by_cases h1 : (x == "Read") = true
    · rw [if_pos h1, if_pos h1]
      exact h .Read
    · rw [if_neg h1, if_neg h1]
      by_cases h2 : (x == "Write") = true
      · rw [if_pos h2, if_pos h2]
        exact h .Write
      · rw [if_neg h2, if_neg h2]

theorem _checkAction_block_congr (k : String) (b1 b2 : PermissionBlock)
    (h : ∀ a : InternalAction,
      checkActionTest (some (blockGet b1 a)) = checkActionTest (some (blockGet b2 a)))
    (scope : String) (act : Option String) (c : String) :
    _checkAction [(k, b1)] scope act c = _checkAction [(k, b2)] scope act c := by
  unfold _checkAction
  have hf := fieldFor_congr_actionTest b1 b2 h
  by_cases hk : (k == _key c scope) = true
  · simp only [mapGet, hk, if_true]
    by_cases hrw : (act == some "ReadWrite") = true
    · simp [expandCheckActions, hrw, hf (some "Read"), hf (some "Write")]
    · simp [expandCheckActions, hrw, hf act]
  · simp [mapGet, hk]

theorem mapGet_singleton_isSome (k key : String) (b : PermissionBlock) :
    (mapGet [(k, b)] key).isSome = (k == key) := by
  by_cases h : (k == key) = true <;> simp [mapGet, h]

/-- C4: granting two distinct specific resources `A` and `B` for the same
`(context, scope, action)` — via one role or via two roles of the same
context — compiles the action's field to the two-element specific set
`{A, B}`: the resource list is exactly `[A, B]`, duplicate-free, with
`{A, B}` as its set of elements; granting in the other order yields `[B, A]`,
equal to it under the source's own `equals` (insertion order irrelevant), and
every query — all six boolean checks and `checkContext` — answers identically
on the two compilations; adding `Scope.Action.All` afterwards collapses the
field to ALL. -/
theorem c4_specific_set_semantics (ctx rid rnm rid2 rnm2 : String) (rd rd2 : Option String)
    (s A B : String) (act : InternalAction)
    (hs : '.' ∉ s.data) (hA : '.' ∉ A.data) (hB : '.' ∉ B.data) (hAB : A ≠ B)
    (hAa : A ≠ allResources) (hAd : A ≠ defaultResource)
    (hBa : B ≠ allResources) (hBd : B ≠ defaultResource) :
    fieldAt (compile [⟨rid, rnm, rd,
        [mkPermString s (tokenOf act) A, mkPermString s (tokenOf act) B], ctx⟩])
      (_key ctx s) act = some (Resources.list [A, B])
    ∧ fieldAt (compile [⟨rid, rnm, rd, [mkPermString s (tokenOf act) A], ctx⟩,
        ⟨rid2, rnm2, rd2, [mkPermString s (tokenOf act) B], ctx⟩])
      (_key ctx s) act = some (Resources.list [A, B])
    ∧ ([A, B] : List String).Nodup
    ∧ ([A, B] : List String).toFinset = {A, B}
    ∧ fieldAt (compile [⟨rid, rnm, rd,
        [mkPermString s (tokenOf act) B, mkPermString s (tokenOf act) A], ctx⟩])
      (_key ctx s) act = some (Resources.list [B, A])
    ∧ equalsRes (Resources.list [A, B]) (Resources.list [B, A]) = true
    ∧ (∀ q : String,
        check [⟨rid, rnm, rd,
            [mkPermString s (tokenOf act) A, mkPermString s (tokenOf act) B], ctx⟩] q
          = check [⟨rid, rnm, rd,
            [mkPermString s (tokenOf act) B, mkPermString s (tokenOf act) A], ctx⟩] q
        ∧ checkLocal [⟨rid, rnm, rd,
            [mkPermString s (tokenOf act) A, mkPermString s (tokenOf act) B], ctx⟩] q
          = checkLocal [⟨rid, rnm, rd,
            [mkPermString s (tokenOf act) B, mkPermString s (tokenOf act) A], ctx⟩] q
        ∧ checkGlobal [⟨rid, rnm, rd,
            [mkPermString s (tokenOf act) A, mkPermString s (tokenOf act) B], ctx⟩] q
          = checkGlobal [⟨rid, rnm, rd,
            [mkPermString s (tokenOf act) B, mkPermString s (tokenOf act) A], ctx⟩] q
        ∧ checkAction [⟨rid, rnm, rd,
            [mkPermString s (tokenOf act) A, mkPermString s (tokenOf act) B], ctx⟩] q
          = checkAction [⟨rid, rnm, rd,
            [mkPermString s (tokenOf act) B, mkPermString s (tokenOf act) A], ctx⟩] q
        ∧ checkActionLocal [⟨rid, rnm, rd,
            [mkPermString s (tokenOf act) A, mkPermString s (tokenOf act) B], ctx⟩] q
          = checkActionLocal [⟨rid, rnm, rd,
            [mkPermString s (tokenOf act) B, mkPermString s (tokenOf act) A], ctx⟩] q
        ∧ checkActionGlobal [⟨rid, rnm, rd,
            [mkPermString s (tokenOf act) A, mkPermString s (tokenOf act) B], ctx⟩] q
          = checkActionGlobal [⟨rid, rnm, rd,
            [mkPermString s (tokenOf act) B, mkPermString s (tokenOf act) A], ctx⟩] q
        ∧ checkContext [⟨rid, rnm, rd,
            [mkPermString s (tokenOf act) A, mkPermString s (tokenOf act) B], ctx⟩] q
          = checkContext [⟨rid, rnm, rd,
            [mkPermString s (tokenOf act) B, mkPermString s (tokenOf act) A], ctx⟩] q)
    ∧ fieldAt (compile [⟨rid, rnm, rd,
        [mkPermString s (tokenOf act) A, mkPermString s (tokenOf act) B,
         mkPermString s (tokenOf act) allResources], ctx⟩])
      (_key ctx s) act = some Resources.all := by
  have hab := compile_two_specific ctx rid rnm rd s A B act hs hA hB hAa hAd hBa hBd
  have hba := compile_two_specific ctx rid rnm rd s B A act hs hB hA hBa hBd hAa hAd
  have hsplit := compile_split_roles ctx rid rnm rid2 rnm2 rd rd2 s A B act hs hA hB
    hAa hAd hBa hBd
  have hall := compile_specific_then_all ctx rid rnm rd s A B act hs hA hB hAa hAd hBa hBd
  have htest : ∀ (a : InternalAction) (r : String),
      checkResourceTest (some (blockGet (blockSet ⟨.list [], .list []⟩ act (.list [A, B])) a)) r
        = checkResourceTest
            (some (blockGet (blockSet ⟨.list [], .list []⟩ act (.list [B, A])) a)) r := by
    intro a r
    rw [blockGet_blockSet, blockGet_blockSet]
    by_cases hact : act = a
    · rw [if_pos hact, if_pos hact]
      simp [checkResourceTest, List.contains_cons, Bool.or_comm, Bool.or_left_comm]
    · rw [if_neg hact, if_neg hact]
  have htestA : ∀ a : InternalAction,
      checkActionTest (some (blockGet (blockSet ⟨.list [], .list []⟩ act (.list [A, B])) a))
        = checkActionTest
            (some (blockGet (blockSet ⟨.list [], .list []⟩ act (.list [B, A])) a)) := by
    intro a
    rw [blockGet_blockSet, blockGet_blockSet]
    by_cases hact : act = a
    · rw [if_pos hact, if_pos hact]
      rfl
    · rw [if_neg hact, if_neg hact]
  refine ⟨?_, ?_, by simp [hAB], by simp, ?_, ?_, fun q => ?_, ?_⟩
  · rw [hab]
    simp [fieldAt, mapGet, blockGet_blockSet]
  · rw [hsplit]
    simp [fieldAt, mapGet, blockGet_blockSet]
  · rw [hba]
    simp [fieldAt, mapGet, blockGet_blockSet]
  · simp [equalsRes, List.contains_cons]
  · refine ⟨?_, ?_, ?_, ?_, ?_, ?_, ?_⟩
    · simp only [check, hab, hba]
      rw [_check_block_congr _ _ _ htest _ _ _ "local",
        _check_block_congr _ _ _ htest _ _ _ "global"]
    · simp only [checkLocal, hab, hba]
      rw [_check_block_congr _ _ _ htest _ _ _ "local"]
    · simp only [checkGlobal, hab, hba]
      rw [_check_block_congr _ _ _ htest _ _ _ "global"]
    · simp only [checkAction, hab, hba]
      rw [_checkAction_block_congr _ _ _ htestA _ _ "local",
        _checkAction_block_congr _ _ _ htestA _ _ "global"]
    · simp only [checkActionLocal, hab, hba]
      rw [_checkAction_block_congr _ _ _ htestA _ _ "local"]
    · simp only [checkActionGlobal, hab, hba]
      rw [_checkAction_block_congr _ _ _ htestA _ _ "global"]
    · simp only [checkContext, hab, hba, mapGet_singleton_isSome]
  · rw [hall]
    simp [fieldAt, mapGet, blockGet_blockSet]

/-- C4, witness: the theorem applied at concrete context, scope, action and
resources `rA ≠ rB`. -/
theorem c4_witness :
    fieldAt (compile [⟨"A", "a", none,
        [mkPermString "User" (tokenOf InternalAction.Read) "rA",
         mkPermString "User" (tokenOf InternalAction.Read) "rB"], "local"⟩])
      (_key "local" "User") InternalAction.Read = some (Resources.list ["rA", "rB"]) :=
  (c4_specific_set_semantics "local" "A" "a" "B" "b" none none "User" "rA" "rB"
    InternalAction.Read (by decide) (by decide) (by decide) (by decide) (by decide)
    (by decide) (by decide) (by decide)).1

end AuthZ
